import Mathlib

/-!
Verification of the mDNS resource-record decoder, presence reconciler,
endpoint resolver and tunnel registry of `pw-resolved-discover`.

Bytes are modelled as `Nat` values (< 256 in all real inputs), byte
sequences as `List Nat`.  Fallible Rust code returning `nom::IResult` is
modelled by `ParseOut`, which distinguishes a nom decode error (`err`)
from a Rust panic (`panic`, e.g. an out-of-range slice index).
-/

namespace PwResolved

/-- Result of running a parser: success with remaining input and value,
a nom decode error, or a Rust panic. -/
inductive ParseOut (α : Type) where
  | ok (rest : List Nat) (val : α)
  | err
  | panic
deriving DecidableEq, Repr

def ParseOut.isOk {α : Type} : ParseOut α → Bool
  | .ok _ _ => true
  | _ => false

/-- `nom::number::complete::be_u16`: two big-endian bytes, decode error on
insufficient input. -/
def be_u16 : List Nat → ParseOut Nat
  | a :: b :: rest => .ok rest (a * 256 + b)
  | _ => .err

/-- `nom::number::complete::be_u32`: four big-endian bytes. -/
def be_u32 : List Nat → ParseOut Nat
  | a :: b :: c :: d :: rest => .ok rest (a * 16777216 + b * 65536 + c * 256 + d)
  | _ => .err

/-- `nom::bytes::complete::take(n)`: first `n` bytes, decode error if fewer
remain. -/
def takeBytes (n : Nat) (l : List Nat) : ParseOut (List Nat) :=
  if n ≤ l.length then .ok (l.drop n) (l.take n) else .err

def ParseOut.bind {α β : Type} : ParseOut α → (List Nat → α → ParseOut β) → ParseOut β
  | .ok rest v, f => f rest v
  | .err, _ => .err
  | .panic, _ => .panic

/-! ### UTF-8 lossy decoding (`String::from_utf8_lossy`)

Modelled from the Rust standard library: a byte list is scanned for valid
UTF-8 sequences; each maximal invalid subpart is replaced by the
replacement character U+FFFD (bytes `EF BF BD`).  Implemented with
explicit fuel so that the definitions reduce in the kernel. -/

def isCont (b : Nat) : Bool := 128 ≤ b && b ≤ 191

/-- If the list starts with a valid UTF-8 sequence, its length (1–4). -/
def utf8SeqLen : List Nat → Option Nat
  | [] => none
  | b :: rest =>
    if b < 128 then some 1
    else if 194 ≤ b && b ≤ 223 then
      match rest with
      | c :: _ => if isCont c then some 2 else none
      | [] => none
    else if b == 224 then
      match rest with
      | c1 :: c2 :: _ => if (160 ≤ c1 && c1 ≤ 191) && isCont c2 then some 3 else none
      | _ => none
    else if (225 ≤ b && b ≤ 236) || b == 238 || b == 239 then
      match rest with
      | c1 :: c2 :: _ => if isCont c1 && isCont c2 then some 3 else none
      | _ => none
    else if b == 237 then
      match rest with
      | c1 :: c2 :: _ => if (128 ≤ c1 && c1 ≤ 159) && isCont c2 then some 3 else none
      | _ => none
    else if b == 240 then
      match rest with
      | c1 :: c2 :: c3 :: _ =>
        if (144 ≤ c1 && c1 ≤ 191) && isCont c2 && isCont c3 then some 4 else none
      | _ => none
    else if 241 ≤ b && b ≤ 243 then
      match rest with
      | c1 :: c2 :: c3 :: _ => if isCont c1 && isCont c2 && isCont c3 then some 4 else none
      | _ => none
    else if b == 244 then
      match rest with
      | c1 :: c2 :: c3 :: _ =>
        if (128 ≤ c1 && c1 ≤ 143) && isCont c2 && isCont c3 then some 4 else none
      | _ => none
    else none

/-- Number of bytes consumed by one invalid subpart (Unicode "maximal
subpart" policy used by `from_utf8_lossy`): the longest valid prefix of
some sequence, at least one byte. -/
def invalidSkip : List Nat → Nat
  | [] => 1
  | b :: rest =>
    if 224 ≤ b && b ≤ 239 then
      match rest with
      | c1 :: r =>
        let c1ok :=
          if b == 224 then 160 ≤ c1 && c1 ≤ 191
          else if b == 237 then 128 ≤ c1 && c1 ≤ 159
          else isCont c1
        if c1ok then
          match r with
          | _ :: _ => 2
          | [] => 2
        else 1
      | [] => 1
    else if 240 ≤ b && b ≤ 244 then
      match rest with
      | c1 :: r =>
        let c1ok :=
          if b == 240 then 144 ≤ c1 && c1 ≤ 191
          else if b == 244 then 128 ≤ c1 && c1 ≤ 143
          else isCont c1
        if c1ok then
          match r with
          | c2 :: _ => if isCont c2 then 3 else 2
          | [] => 2
        else 1
      | [] => 1
    else 1

/-- Fueled worker for `utf8Lossy`. -/
def utf8LossyF : Nat → List Nat → List Nat
  | 0, _ => []
  | _ + 1, [] => []
  | fuel + 1, b :: rest =>
    match utf8SeqLen (b :: rest) with
    | some n => (b :: rest).take n ++ utf8LossyF fuel ((b :: rest).drop n)
    | none => 239 :: 191 :: 189 :: utf8LossyF fuel ((b :: rest).drop (invalidSkip (b :: rest)))

/-- `String::from_utf8_lossy`, as a byte-list transformer. -/
def utf8Lossy (l : List Nat) : List Nat := utf8LossyF l.length l

/-- Fueled worker for `utf8Valid`. -/
def utf8ValidF : Nat → List Nat → Bool
  | 0, l => l.isEmpty
  | _ + 1, [] => true
  | fuel + 1, b :: rest =>
    match utf8SeqLen (b :: rest) with
    | some n => utf8ValidF fuel ((b :: rest).drop n)
    | none => false

/-- The byte list is valid UTF-8 (i.e. it is the encoding of a Rust
`String`). -/
def utf8Valid (l : List Nat) : Bool := utf8ValidF l.length l

/-! ### `parse_name` and `parse_rr` (src/rr.rs) -/

/-- Fueled worker for `parse_name`.  `res` is the accumulated dotted name
(`.` = byte 46), `i` the remaining input.  Mirrors the source loop: a zero
length byte ends the name; a nonzero length byte `n` is followed by an
`n`-byte label, converted with `from_utf8_lossy` and appended (with a dot
separator when the accumulator is nonempty); slicing a label longer than
the remaining buffer is a Rust panic. -/
def parseNameF : Nat → List Nat → List Nat → ParseOut (List Nat)
  | _, _, [] => .err
  | 0, _, _ :: _ => .err
  | _ + 1, res, 0 :: remaining => .ok remaining res
  | fuel + 1, res, (n + 1) :: remaining =>
    if n + 1 ≤ remaining.length then
      parseNameF fuel
        ((if res.isEmpty then res else res ++ [46]) ++ utf8Lossy (remaining.take (n + 1)))
        (remaining.drop (n + 1))
    else .panic

/-- `parse_name` of src/rr.rs.  The name is returned as the byte sequence
of the resulting Rust `String`. -/
def parse_name (input : List Nat) : ParseOut (List Nat) :=
  parseNameF (input.length + 1) [] input

/-- `ResourceRecord` of src/rr.rs (the `name` field as the byte sequence
of the Rust `String`). -/
structure ResourceRecord where
  name : List Nat
  type_ : Nat
  class_ : Nat
  ttl : Nat
  rdata : List Nat
deriving DecidableEq, Repr

/-- `parse_rr` of src/rr.rs: a name, then big-endian `type`, `class`,
`ttl`, payload length, then exactly that many payload bytes. -/
def parse_rr (input : List Nat) : ParseOut ResourceRecord :=
  (parse_name input).bind fun i1 name =>
    (be_u16 i1).bind fun i2 type_ =>
      (be_u16 i2).bind fun i3 class_ =>
        (be_u32 i3).bind fun i4 ttl =>
          (be_u16 i4).bind fun i5 rd_length =>
            (takeBytes rd_length i5).bind fun i6 rdata =>
              .ok i6 ⟨name, type_, class_, ttl, rdata⟩

/-- Well-formed length structure of a wire-format name: every label's
declared length fits in the remaining buffer and a zero-length terminator
is reached (fueled worker). -/
def nameWfF : Nat → List Nat → Bool
  | _, [] => false
  | 0, _ :: _ => false
  | _ + 1, 0 :: _ => true
  | fuel + 1, (n + 1) :: remaining =>
    n + 1 ≤ remaining.length && nameWfF fuel (remaining.drop (n + 1))

def nameWf (input : List Nat) : Bool := nameWfF (input.length + 1) input

/-! ### Wire-format encoding of a synthetic record

Modelled from the spec: the wire format is length-prefixed labels
terminated by a zero label, then big-endian type, class, ttl, payload
length, payload.  A label longer than 255 bytes or a field exceeding its
fixed width has no wire-format image (`none`). -/

def encodeU16 (n : Nat) : List Nat := [n / 256, n % 256]

def encodeU32 (n : Nat) : List Nat :=
  [n / 16777216, n / 65536 % 256, n / 256 % 256, n % 256]

def encodeName : List (List Nat) → Option (List Nat)
  | [] => some [0]
  | l :: ls =>
    if l.length ≤ 255 then (encodeName ls).map (fun r => l.length :: (l ++ r)) else none

def encodeRR (labels : List (List Nat)) (type_ class_ ttl : Nat)
    (payload : List Nat) : Option (List Nat) :=
  if type_ < 65536 && class_ < 65536 && ttl < 4294967296 && payload.length < 65536 then
    (encodeName labels).map (fun nm =>
      nm ++ encodeU16 type_ ++ encodeU16 class_ ++ encodeU32 ttl ++
        encodeU16 payload.length ++ payload)
  else none

/-- The name's labels joined with `'.'` (byte 46). -/
def joinDots : List (List Nat) → List Nat
  | [] => []
  | [l] => l
  | l :: l2 :: ls => l ++ 46 :: joinDots (l2 :: ls)

/-! ### Presence Reconciler (`found_mdns`, src/main.rs)

`ResolvedHost` carries `ifindex`, `name`, `domain` and the hysteresis
budget `retries`; equality and ordering in the source ignore `retries`
(the `derivative` attributes), which the model makes explicit through the
key `hKey`.  The `BTreeSet` is modelled as a list with key-based
membership. -/

structure ResolvedHost where
  ifindex : Int
  name : List Nat
  domain : List Nat
  retries : Nat
deriving DecidableEq, Repr

def hKey (h : ResolvedHost) : Int × List Nat × List Nat := (h.ifindex, h.name, h.domain)

/-- Set membership of the source's `BTreeSet<ResolvedHost>`: comparison
ignores `retries`. -/
def keyIn (h : ResolvedHost) (s : List ResolvedHost) : Bool :=
  s.any (fun x => decide (hKey x = hKey h))

/-- One sighting extracted from a decoded pointer record:
`(ifindex, rr.name, domain)`. -/
abbrev Sighting := Int × List Nat × List Nat

def mkHost (s : Sighting) : ResolvedHost := ⟨s.1, s.2.1, s.2.2, 8⟩

/-- `BTreeSet::insert` of one sighted host: keeps the existing element on
key collision. -/
def insHost (acc : List ResolvedHost) (s : Sighting) : List ResolvedHost :=
  if keyIn (mkHost s) acc then acc else acc ++ [mkHost s]

/-- `resolved_this_time`: every sighting inserted with `retries = 8`. -/
def buildThisTime (sightings : List Sighting) : List ResolvedHost :=
  sightings.foldl insHost []

structure CycleOut where
  set : List ResolvedHost
  removedReports : List ResolvedHost
  addedReports : List ResolvedHost
deriving DecidableEq, Repr

/-- One reconciliation cycle of `found_mdns`: build the fresh set from the
sightings; every previously-present host absent from it is reported
removed if its budget is zero, otherwise decremented and re-inserted;
hosts of the new set that were not previously present are reported
added. -/
def cycle (resolved : List ResolvedHost) (sightings : List Sighting) : CycleOut :=
  let thisTime := buildThisTime sightings
  let disappeared := resolved.filter (fun h => ! keyIn h thisTime)
  let removedReports := disappeared.filter (fun h => h.retries == 0)
  let readd := (disappeared.filter (fun h => h.retries != 0)).map
    (fun h => { h with retries := h.retries - 1 })
  let newSet := thisTime ++ readd
  ⟨newSet, removedReports, newSet.filter (fun h => ! keyIn h resolved)⟩

/-- The stable set after `k` reconciliation cycles with sightings
`sights 0, …, sights (k-1)`. -/
def iterCycles (start : List ResolvedHost) (sights : Nat → List Sighting) :
    Nat → List ResolvedHost
  | 0 => start
  | k + 1 => (cycle (iterCycles start sights k) (sights k)).set

/-! ### Per-element record processing of the two browse loops -/

/-- Fate of one browse-response element: contributes a value, is skipped
(per-element error, loop continues), or panics (aborting the thread). -/
inductive ElemRes (α : Type) where
  | keep (a : α)
  | skip
  | crash
deriving DecidableEq, Repr

/-- One browse-response element: `(ifindex, class, type, data)`. -/
abbrev BrowseElem := Int × Nat × Nat × List Nat

def CLASS_IN : Nat := 1
def TYPE_PTR : Nat := 12

/-- Element processing of the Presence Reconciler (`found_mdns`): discard
on element-level class/type mismatch, decode, discard on record-level
class/type mismatch, decode the target domain, and produce the candidate
host with full budget. -/
def elemCandidate (rec : BrowseElem) : ElemRes ResolvedHost :=
  let (ifindex, class_, type_, data) := rec
  if class_ != CLASS_IN || type_ != TYPE_PTR then .skip
  else match parse_rr data with
    | .panic => .crash
    | .err => .skip
    | .ok _ rr =>
      if rr.class_ != CLASS_IN || rr.type_ != TYPE_PTR then .skip
      else match parse_name rr.rdata with
        | .panic => .crash
        | .err => .skip
        | .ok _ domain => .keep ⟨ifindex, rr.name, domain, 8⟩

/-- All candidate sightings of one `found_mdns` cycle (`none` when an
element panics the thread). -/
def extractCandidates : List BrowseElem → Option (List ResolvedHost)
  | [] => some []
  | r :: rs =>
    match elemCandidate r with
    | .crash => none
    | .skip => extractCandidates rs
    | .keep h => (extractCandidates rs).map (h :: ·)

/-- Element processing of the Endpoint Resolver Loop (`resolved_mdns`):
decode first, then discard when the element-level type or the record-level
type is not PTR (the class is not inspected), then decode the target
domain that feeds `resolve_service`. -/
def elemDomain (rec : BrowseElem) : ElemRes (List Nat) :=
  let (_ifindex, _class, type_, data) := rec
  match parse_rr data with
  | .panic => .crash
  | .err => .skip
  | .ok _ rr =>
    if type_ != TYPE_PTR || rr.type_ != TYPE_PTR then .skip
    else match parse_name rr.rdata with
      | .panic => .crash
      | .err => .skip
      | .ok _ domain => .keep domain

/-- All target domains of one `resolved_mdns` cycle; each one yields the
discovered endpoints of its service resolution. -/
def extractDomains : List BrowseElem → Option (List (List Nat))
  | [] => some []
  | r :: rs =>
    match elemDomain r with
    | .crash => none
    | .skip => extractDomains rs
    | .keep d => (extractDomains rs).map (d :: ·)

/-! ### Socket-address construction (`resolved_mdns`, src/main.rs) -/

inductive SockAddr where
  | v4 (addr : List Nat) (port : Nat)
  | v6 (addr : List Nat) (port : Nat) (scope_id : Nat)
deriving DecidableEq, Repr

def AF_INET4 : Int := 2
def AF_INET6 : Int := 10

/-- `Ipv6Addr::is_unicast_link_local`: the first segment masked with
`0xffc0` equals `0xfe80`. -/
def is_unicast_link_local (addr : List Nat) : Bool :=
  match addr with
  | b0 :: b1 :: _ => (b0 * 256 + b1) &&& 65472 == 65152
  | _ => false

/-- Socket-address construction for one resolved `(ifindex, af, address)`
tuple: a 16-byte IPv6 address gets scope id `ifindex as u32` when
link-local unicast and `0` otherwise; a 4-byte IPv4 address has no scope;
any other combination is skipped. -/
def mkSocket (ifindex : Int) (af : Int) (address : List Nat) (port : Nat) :
    Option SockAddr :=
  if af == AF_INET6 && address.length == 16 then
    some (.v6 address port
      (if is_unicast_link_local address then (ifindex % 4294967296).toNat else 0))
  else if af == AF_INET4 && address.length == 4 then
    some (.v4 address port)
  else none

/-! ### Endpoint/Tunnel Registry (timer closure of `main`, src/main.rs) -/

/-- Rust `String`s handled by the registry, modelled as character lists so
that all operations reduce in the kernel. -/
abbrev RStr := List Char

structure TunnelKey where
  hostname : RStr
  socket : SockAddr
deriving DecidableEq, Repr

structure Discovered where
  hostname : RStr
  socket : SockAddr
  records : List RStr
deriving DecidableEq, Repr

def tunnelKey (msg : Discovered) : TunnelKey := ⟨msg.hostname, msg.socket⟩

/-- Processing of one taken `Discovered` event: the tunnel map is the
list of keys holding a sink handle; an already-present key is discarded
(`false` = no sink-creation call), otherwise a sink is created and its
handle stored under the key. -/
def registryStep (tunnels : List TunnelKey) (msg : Discovered) :
    List TunnelKey × Bool :=
  if tunnelKey msg ∈ tunnels then (tunnels, false)
  else (tunnels ++ [tunnelKey msg], true)

/-- Consuming a sequence of events: final tunnel map and the trace of
keys for which a sink-creation call was made. -/
def registryRun : List TunnelKey → List Discovered → List TunnelKey × List TunnelKey
  | st, [] => (st, [])
  | st, m :: ms =>
    let step := registryStep st m
    let rest := registryRun step.1 ms
    (rest.1, (if step.2 then [tunnelKey m] else []) ++ rest.2)

/-! ### Auxiliary-text property decoding (timer closure of `main`) -/

/-- The structured sink properties the registry derives from the text
records (`raop.name`, `raop.transport`, `raop.encryption.type`,
`raop.audio.codec`). -/
structure Props where
  name : RStr
  transport : Option RStr
  encryption : Option RStr
  codec : Option RStr
deriving DecidableEq, Repr

/-- `str::strip_prefix`. -/
def stripPre : RStr → RStr → Option RStr
  | [], s => some s
  | _ :: _, [] => none
  | p :: ps, c :: cs => if p = c then stripPre ps cs else none

/-- `str::split(',')`. -/
def splitComma : RStr → List RStr
  | [] => [[]]
  | c :: cs =>
    if c = ',' then [] :: splitComma cs
    else
      match splitComma cs with
      | [] => [[c]]
      | h :: t => (c :: h) :: t

/-- `clc` of the source: the comma-separated list `l` contains `v`. -/
def clc (l v : RStr) : Bool := (splitComma l).any (fun i => decide (i = v))

/-- The display name: value of the first `am=` record. -/
def findAm (records : List RStr) : Option RStr :=
  records.findSome? (fun r => stripPre "am=".toList r)

/-- One iteration of the property loop: each matching record inserts
(overwrites) its property; unknown transports and codecs insert nothing,
an unknown encryption type inserts `"none"`. -/
def applyRecord (p : Props) (r : RStr) : Props :=
  match stripPre "tp=".toList r with
  | some tp =>
    if clc tp "UDP".toList then { p with transport := some "udp".toList }
    else if clc tp "TCP".toList then { p with transport := some "tcp".toList }
    else p
  | none =>
    match stripPre "et=".toList r with
    | some et =>
      if clc et "1".toList then { p with encryption := some "RSA".toList }
      else if clc et "4".toList then { p with encryption := some "auth_setup".toList }
      else { p with encryption := some "none".toList }
    | none =>
      match stripPre "cn=".toList r with
      | some cn =>
        if clc cn "3".toList then { p with codec := some "AAC-ELD".toList }
        else if clc cn "2".toList then { p with codec := some "AAC".toList }
        else if clc cn "1".toList then { p with codec := some "ALAC".toList }
        else if clc cn "0".toList then { p with codec := some "PCM".toList }
        else p
      | none => p

/-- The full property decoding for one event: display name from the first
`am=` record (default `"<unnamed>"`), with an `" (IPv4)"` suffix for IPv4
addresses, then the record loop in order. -/
def mkProps (records : List RStr) (isV4 : Bool) : Props :=
  let readable := (findAm records).getD "<unnamed>".toList
  records.foldl applyRecord
    { name := readable ++ (if isV4 then " (IPv4)".toList else [])
      transport := none, encryption := none, codec := none }

/-! ### Derived notions used in the statements -/

/-- The payload length declared in a record header (bytes 8 and 9 after
the name), big-endian. -/
def declaredLen (rest : List Nat) : Nat := rest.getD 8 0 * 256 + rest.getD 9 0

/-- Number of sink-creation calls recorded for key `k`. -/
def countKey (k : TunnelKey) (l : List TunnelKey) : Nat :=
  (l.filter (fun x => decide (x = k))).length

/-- A host identity, i.e. the part of a `ResolvedHost` that participates
in equality and ordering. -/
abbrev HostId := Int × List Nat × List Nat

/-- Some element of `s` has key `k` (Prop version of `keyIn`). -/
def KeyMemP (k : HostId) (s : List ResolvedHost) : Prop :=
  ∃ x ∈ s, hKey x = k

/-- Some element of `s` has key `k` and hysteresis budget `r`. -/
def memRet (s : List ResolvedHost) (k : HostId) (r : Nat) : Prop :=
  ∃ x ∈ s, hKey x = k ∧ x.retries = r

/-- The keys of `s` are pairwise distinct (the `BTreeSet` invariant). -/
def nodupKeys (s : List ResolvedHost) : Prop := (s.map hKey).Nodup

/-- Number of elements of `s` with key `k`. -/
def countHKey (k : HostId) (s : List ResolvedHost) : Nat :=
  (s.filter (fun x => decide (hKey x = k))).length

/-- The accumulator-level form of the name produced by the `parse_name`
loop: each label is lossy-decoded and appended behind a dot separator
unless the accumulator is still empty. -/
def joinAcc (res : List Nat) (labels : List (List Nat)) : List Nat :=
  labels.foldl (fun r l => (if r.isEmpty then r else r ++ [46]) ++ utf8Lossy l) res

/-- `joinAcc` after the first label: a dot and a lossy-decoded label per
remaining label. -/
def dotTail (ls : List (List Nat)) : List Nat :=
  (ls.map (fun l => 46 :: utf8Lossy l)).flatten

/-- The stable set holding exactly the host `(1, "a", "b")` freshly
sighted with full budget (start state of the flap-damping scenario). -/
def c1StartSet : List ResolvedHost := (cycle [] [((1 : Int), [97], [98])]).set

/-! ## Theorems -/

/-- Claim C2 (code bug): on the input `[2, 65]` the label declares length
2 with only one byte remaining; `parse_name` does not return a decode
error but panics (the slice index `&remaining[0..label_end]` is out of
range), contradicting the claim that it never panics. -/
theorem c2_parse_name_panics :
    parse_name [2, 65] = ParseOut.panic ∧ parse_name [2, 65] ≠ ParseOut.err := by
  decide

/-- Claim C6: for a resolved address tuple, an IPv6 family with a 16-byte
link-local-unicast address yields scope id `interface_index`; IPv6 with a
16-byte non-link-local address yields scope id 0; IPv4 with a 4-byte
address yields a plain IPv4 socket address without a scope id; every
other family/length combination yields no endpoint. -/
theorem c6_scope_id (ifindex af : Int) (address : List Nat) (port : Nat)
    (h0 : 0 ≤ ifindex) (h32 : ifindex < 4294967296) :
    (af = 10 → address.length = 16 → is_unicast_link_local address = true →
      mkSocket ifindex af address port = some (.v6 address port ifindex.toNat)) ∧
    (af = 10 → address.length = 16 → is_unicast_link_local address = false →
      mkSocket ifindex af address port = some (.v6 address port 0)) ∧
    (af = 2 → address.length = 4 →
      mkSocket ifindex af address port = some (.v4 address port)) ∧
    (¬ ((af = 10 ∧ address.length = 16) ∨ (af = 2 ∧ address.length = 4)) →
      mkSocket ifindex af address port = none) := by
  have hmod : ifindex % 4294967296 = ifindex := Int.emod_eq_of_lt h0 h32
  refine ⟨?_, ?_, ?_, ?_⟩
  · intro haf hlen hll
    simp [mkSocket, AF_INET6, haf, hlen, hll, hmod]
  · intro haf hlen hll
    simp [mkSocket, AF_INET6, haf, hlen, hll]
  · intro haf hlen
    simp [mkSocket, AF_INET4, AF_INET6, haf, hlen]
  · intro hother
    have h1 : ¬(af == AF_INET6 && address.length == 16) = true := by
      simp only [Bool.and_eq_true, beq_iff_eq, AF_INET6]
      rintro ⟨ha, hl⟩
      exact hother (Or.inl ⟨ha, hl⟩)
    have h2 : ¬(af == AF_INET4 && address.length == 4) = true := by
      simp only [Bool.and_eq_true, beq_iff_eq, AF_INET4]
      rintro ⟨ha, hl⟩
      exact hother (Or.inr ⟨ha, hl⟩)
    simp [mkSocket, h1, h2]

/-- Witness for C6 at concrete inputs: `fe80::1` on interface 3 gets
scope id 3, `2001:db8::1` gets scope id 0, a 4-byte IPv4 address gets no
scope, and a 3-byte address is skipped. -/
theorem c6_scope_id_witness :
    mkSocket 3 10 [254, 128, 0, 0, 0, 0, 0, 0, 0, 0, 0, 0, 0, 0, 0, 1] 80 =
      some (.v6 [254, 128, 0, 0, 0, 0, 0, 0, 0, 0, 0, 0, 0, 0, 0, 1] 80 3) ∧
    mkSocket 5 10 [32, 1, 13, 184, 0, 0, 0, 0, 0, 0, 0, 0, 0, 0, 0, 1] 80 =
      some (.v6 [32, 1, 13, 184, 0, 0, 0, 0, 0, 0, 0, 0, 0, 0, 0, 1] 80 0) ∧
    mkSocket 7 2 [192, 168, 0, 1] 80 = some (.v4 [192, 168, 0, 1] 80) ∧
    mkSocket 7 2 [1, 2, 3] 80 = none :=
  ⟨(c6_scope_id 3 10 _ 80 (by decide) (by decide)).1 rfl (by decide) (by decide),
   (c6_scope_id 5 10 _ 80 (by decide) (by decide)).2.1 rfl (by decide) (by decide),
   (c6_scope_id 7 2 _ 80 (by decide) (by decide)).2.2.1 rfl (by decide),
   (c6_scope_id 7 2 _ 80 (by decide) (by decide)).2.2.2 (by decide)⟩

/-- Counterexample to claim C7: "first match wins per key prefix" fails
for `tp=`: with records `["tp=TCP", "tp=UDP"]` every matching record
overwrites the transport property, so the last one wins and the decoded
transport is `"udp"`, not `"tcp"`. -/
theorem c7_first_match_counterexample :
    (mkProps ["tp=TCP".toList, "tp=UDP".toList] false).transport = some "udp".toList ∧
    (mkProps ["tp=TCP".toList, "tp=UDP".toList] false).transport ≠ some "tcp".toList := by
  decide

/-- Claim C7 as amended: the fixed decoding rules hold with the last
matching record winning for `tp=`/`et=`/`cn=` (each match overwrites the
property) while the first `am=` record supplies the display name:
`["tp=TCP", "et=1", "cn=2", "am=Kitchen"]` yields transport `"tcp"`,
encryption `"RSA"`, codec `"AAC"` and display name `"Kitchen"`;
`["cn=99"]` leaves the codec unset; an absent `am=` yields
`"<unnamed>"`; an IPv4 address appends an `" (IPv4)"` suffix. -/
theorem c7_property_mapping :
    mkProps ["tp=TCP".toList, "et=1".toList, "cn=2".toList, "am=Kitchen".toList] false =
      ⟨"Kitchen".toList, some "tcp".toList, some "RSA".toList, some "AAC".toList⟩ ∧
    (mkProps ["cn=99".toList] false).codec = none ∧
    (mkProps ["tp=TCP".toList] false).name = "<unnamed>".toList ∧
    (mkProps ["am=Kitchen".toList] true).name = "Kitchen (IPv4)".toList ∧
    (mkProps ["am=A".toList, "am=B".toList] false).name = "A".toList ∧
    (mkProps ["tp=TCP".toList, "tp=UDP".toList] false).transport = some "udp".toList := by
  decide

/-- A name whose length structure is well formed parses successfully,
whatever the label bytes are (helper for the claim about `parse_name`). -/
theorem parseNameF_ok_of_wf :
    ∀ (fuel : Nat) (input res : List Nat),
      nameWfF fuel input = true → (parseNameF fuel res input).isOk = true := by
  intro fuel
  induction fuel with
  | zero => intro input res h; cases input <;> simp [nameWfF] at h
  | succ f ih =>
    intro input res h
    match input with
    | [] => simp [nameWfF] at h
    | 0 :: rem => simp [parseNameF, ParseOut.isOk]
    | (n + 1) :: rem =>
      simp only [nameWfF, Bool.and_eq_true, decide_eq_true_eq] at h
      simp only [parseNameF]
      rw [if_pos h.1]
      exact ih _ _ h.2

/-- Claim C10: for every input whose length structure is well formed
(every label length fits in the remaining buffer and a zero terminator is
reached), `parse_name` succeeds regardless of label content — invalid
UTF-8 label bytes are replaced by the replacement character inside
`utf8Lossy` and never cause a failure. -/
theorem c10_content_independent (input : List Nat) (h : nameWf input = true) :
    (parse_name input).isOk = true :=
  parseNameF_ok_of_wf (input.length + 1) input [] h

/-- Witness for C10: `[2, 255, 254, 0]` carries a label that is not valid
UTF-8, yet its length structure is well formed and parsing succeeds. -/
theorem c10_content_independent_witness :
    nameWf [2, 255, 254, 0] = true ∧ (parse_name [2, 255, 254, 0]).isOk = true :=
  ⟨by decide, c10_content_independent [2, 255, 254, 0] (by decide)⟩

/-- Claim C8: whenever the bytes after the name are too short for the
fixed-width header fields or for the declared payload length, `parse_rr`
returns a decode error — not a panic and not an out-of-bounds read. -/
theorem c8_rr_truncation (input rest name : List Nat)
    (hname : parse_name input = .ok rest name)
    (htr : rest.length < 10 + declaredLen rest) :
    parse_rr input = ParseOut.err := by
  unfold parse_rr
  rw [hname]
  simp only [ParseOut.bind]
  rcases rest with _ | ⟨b0, _ | ⟨b1, _ | ⟨b2, _ | ⟨b3, _ | ⟨b4, _ | ⟨b5, _ | ⟨b6, _ |
    ⟨b7, _ | ⟨b8, _ | ⟨b9, tl⟩⟩⟩⟩⟩⟩⟩⟩⟩⟩ <;>
    simp_all [ParseOut.bind, be_u16, be_u32, takeBytes, declaredLen, List.getD]
  rw [if_neg (by omega)]

/-- Witness for C8: after the empty name of `[0]` no header bytes remain,
and `parse_rr` returns a decode error. -/
theorem c8_rr_truncation_witness :
    parse_name [0] = .ok [] [] ∧ parse_rr [0] = ParseOut.err :=
  ⟨by decide, c8_rr_truncation [0] [] [] (by decide) (by decide)⟩

/-- Counterexample to claim C9: a browse element with class 99 (≠ IN) but
type PTR and a well-formed payload is *not* discarded by the Endpoint
Resolver Loop — `resolved_mdns` never inspects the class, so the element
still contributes the target domain `"b"`. -/
theorem c9_counterexample :
    (99 : Nat) ≠ CLASS_IN ∧
    elemDomain ((0 : Int), 99, 12, [1, 97, 0, 0, 12, 0, 1, 0, 0, 0, 0, 0, 3, 1, 98, 0]) =
      ElemRes.keep [98] := by
  decide

/-- Claim C9 as amended: the Presence Reconciler discards (per element)
every browse element whose class or type differs from IN/PTR, and
processing of the remaining elements is unaffected; the Endpoint Resolver
Loop checks only the type — an element whose type is not PTR never
contributes a target domain, and a skipped element leaves the rest of the
cycle unaffected — but it does not discard on class mismatch. -/
theorem c9_per_element_discard :
    (∀ rec : BrowseElem, rec.2.1 ≠ CLASS_IN ∨ rec.2.2.1 ≠ TYPE_PTR →
      elemCandidate rec = ElemRes.skip) ∧
    (∀ (xs ys : List BrowseElem) (rec : BrowseElem), elemCandidate rec = ElemRes.skip →
      extractCandidates (xs ++ rec :: ys) = extractCandidates (xs ++ ys)) ∧
    (∀ (rec : BrowseElem) (d : List Nat), rec.2.2.1 ≠ TYPE_PTR →
      elemDomain rec ≠ ElemRes.keep d) ∧
    (∀ (xs ys : List BrowseElem) (rec : BrowseElem), elemDomain rec = ElemRes.skip →
      extractDomains (xs ++ rec :: ys) = extractDomains (xs ++ ys)) := by
  refine ⟨?_, ?_, ?_, ?_⟩
  · rintro ⟨i, c, t, data⟩ h
    simp only [elemCandidate]
    rw [if_pos]
    simp only [Bool.or_eq_true, bne_iff_ne]
    exact h
  · intro xs ys rec h
    induction xs with
    | nil => simp [extractCandidates, h]
    | cons x xs ih =>
      simp only [List.cons_append, extractCandidates]
      cases hx : elemCandidate x <;> simp [ih]
  · rintro ⟨i, c, t, data⟩ d h
    simp only [elemDomain]
    cases hp : parse_rr data with
    | ok rest rr =>
      have ht : (t != TYPE_PTR || rr.type_ != TYPE_PTR) = true := by
        simp only [Bool.or_eq_true, bne_iff_ne]
        exact Or.inl h
      simp [ht]
    | err => simp
    | panic => simp
  · intro xs ys rec h
    induction xs with
    | nil => simp [extractDomains, h]
    | cons x xs ih =>
      simp only [List.cons_append, extractDomains]
      cases hx : elemDomain x <;> simp [ih]

/-- Witness for C9 (amended): concrete instances — a class-99 element is
skipped by the reconciler and leaves its cycle unaffected; a type-11
element never contributes a domain in the resolver and extraction skips
it. -/
theorem c9_per_element_discard_witness :
    elemCandidate ((0 : Int), 99, 12, [1, 97, 0, 0, 12, 0, 1, 0, 0, 0, 0, 0, 3, 1, 98, 0]) =
      ElemRes.skip ∧
    extractCandidates [((0 : Int), 99, 12, [1, 97, 0, 0, 12, 0, 1, 0, 0, 0, 0, 0, 3, 1, 98, 0])] =
      extractCandidates [] ∧
    elemDomain ((0 : Int), 1, 11, [1, 97, 0, 0, 12, 0, 1, 0, 0, 0, 0, 0, 3, 1, 98, 0]) ≠
      ElemRes.keep [98] ∧
    extractDomains [((0 : Int), 1, 11, [1, 97, 0, 0, 12, 0, 1, 0, 0, 0, 0, 0, 3, 1, 98, 0])] =
      extractDomains [] :=
  ⟨c9_per_element_discard.1 _ (Or.inl (by decide)),
   c9_per_element_discard.2.1 [] [] _ (c9_per_element_discard.1 _ (Or.inl (by decide))),
   c9_per_element_discard.2.2.1 _ [98] (by decide),
   c9_per_element_discard.2.2.2 [] [] _ (by decide)⟩

theorem countKey_append (k : TunnelKey) (l1 l2 : List TunnelKey) :
    countKey k (l1 ++ l2) = countKey k l1 + countKey k l2 := by
  simp [countKey, List.filter_append]

/-- Once a key holds a sink, no later event creates another sink for it. -/
theorem registry_no_recreate :
    ∀ (msgs : List Discovered) (st : List TunnelKey) (k : TunnelKey),
      k ∈ st → countKey k (registryRun st msgs).2 = 0 := by
  intro msgs
  induction msgs with
  | nil => intro st k hk; simp [registryRun, countKey]
  | cons m ms ih =>
    intro st k hk
    simp only [registryRun]
    by_cases hm : tunnelKey m ∈ st
    · simp only [registryStep, if_pos hm]
      simpa using ih st k hk
    · simp only [registryStep, if_neg hm, if_true]
      rw [countKey_append]
      have hne : tunnelKey m ≠ k := fun he => hm (he ▸ hk)
      have h1 : countKey k [tunnelKey m] = 0 := by
        simp [countKey, hne]
      rw [h1, ih (st ++ [tunnelKey m]) k (List.mem_append_left _ hk)]

/-- Claim C5: over any event sequence the registry makes at most one
sink-creation call per distinct `TunnelKey`; an event whose key is
already present is discarded without a creation call; a fresh key gets a
sink whose handle is stored under the key. -/
theorem c5_registry_dedup :
    (∀ (msgs : List Discovered) (k : TunnelKey),
      countKey k (registryRun [] msgs).2 ≤ 1) ∧
    (∀ (st : List TunnelKey) (m : Discovered), tunnelKey m ∈ st →
      registryStep st m = (st, false)) ∧
    (∀ (st : List TunnelKey) (m : Discovered), tunnelKey m ∉ st →
      registryStep st m = (st ++ [tunnelKey m], true) ∧
        tunnelKey m ∈ (registryStep st m).1) := by
  refine ⟨?_, ?_, ?_⟩
  · have key : ∀ (msgs : List Discovered) (st : List TunnelKey) (k : TunnelKey),
        countKey k (registryRun st msgs).2 ≤ 1 := by
      intro msgs
      induction msgs with
      | nil => intro st k; simp [registryRun, countKey]
      | cons m ms ih =>
        intro st k
        simp only [registryRun]
        by_cases hm : tunnelKey m ∈ st
        · simp only [registryStep, if_pos hm]
          simpa using ih st k
        · simp only [registryStep, if_neg hm, if_true]
          rw [countKey_append]
          by_cases hk : tunnelKey m = k
          · have h1 : countKey k [tunnelKey m] = 1 := by simp [countKey, hk]
            have h2 : countKey k (registryRun (st ++ [tunnelKey m]) ms).2 = 0 :=
              registry_no_recreate ms _ k
                (hk ▸ List.mem_append_right _ (List.mem_singleton_self _))
            omega
          · have h1 : countKey k [tunnelKey m] = 0 := by simp [countKey, hk]
            have := ih (st ++ [tunnelKey m]) k
            omega
    intro msgs k
    exact key msgs [] k
  · intro st m hm
    simp [registryStep, hm]
  · intro st m hm
    refine ⟨by simp [registryStep, hm], ?_⟩
    simp [registryStep, hm]

/-- Witness for C5: two events with the same key yield at most one
creation; a key already present is discarded with no creation; a fresh
key is created and stored. -/
theorem c5_registry_dedup_witness :
    countKey ⟨"h".toList, .v4 [1, 2, 3, 4] 80⟩
      (registryRun []
        [⟨"h".toList, .v4 [1, 2, 3, 4] 80, []⟩,
         ⟨"h".toList, .v4 [1, 2, 3, 4] 80, []⟩]).2 ≤ 1 ∧
    registryStep [⟨"h".toList, .v4 [1, 2, 3, 4] 80⟩]
        ⟨"h".toList, .v4 [1, 2, 3, 4] 80, []⟩ =
      ([⟨"h".toList, .v4 [1, 2, 3, 4] 80⟩], false) ∧
    registryStep [] ⟨"h".toList, .v4 [1, 2, 3, 4] 80, []⟩ =
      ([⟨"h".toList, .v4 [1, 2, 3, 4] 80⟩], true) :=
  ⟨c5_registry_dedup.1 _ _, c5_registry_dedup.2.1 _ _ (by decide),
   (c5_registry_dedup.2.2 _ _ (by decide)).1⟩

/-! ### Reconciler lemmas -/

theorem hKey_mkHost (s : Sighting) : hKey (mkHost s) = s := rfl

theorem keyIn_eq_true_iff (h : ResolvedHost) (s : List ResolvedHost) :
    keyIn h s = true ↔ KeyMemP (hKey h) s := by
  simp [keyIn, KeyMemP, List.any_eq_true]

theorem keyIn_congr (h1 h2 : ResolvedHost) (s : List ResolvedHost)
    (he : hKey h1 = hKey h2) : keyIn h1 s = keyIn h2 s := by
  simp [keyIn, he]

theorem keyIn_append (h : ResolvedHost) (l1 l2 : List ResolvedHost) :
    keyIn h (l1 ++ l2) = (keyIn h l1 || keyIn h l2) := by
  simp [keyIn, List.any_append]

/-- Every element accumulated by the sighting fold is either from the
accumulator or a freshly built host. -/
theorem mem_foldl_insHost :
    ∀ (sgs : List Sighting) (acc : List ResolvedHost) (x : ResolvedHost),
      x ∈ sgs.foldl insHost acc → x ∈ acc ∨ ∃ s ∈ sgs, x = mkHost s := by
  intro sgs
  induction sgs with
  | nil => intro acc x hx; exact Or.inl hx
  | cons s ss ih =>
    intro acc x hx
    rw [List.foldl_cons] at hx
    rcases ih _ x hx with h | ⟨s', hs', he⟩
    · unfold insHost at h
      split at h
      · exact Or.inl h
      · rcases List.mem_append.mp h with h | h
        · exact Or.inl h
        · right
          refine ⟨s, List.mem_cons_self s ss, ?_⟩
          simpa using h
    · exact Or.inr ⟨s', List.mem_cons_of_mem _ hs', he⟩

theorem keyIn_foldl_of_keyIn :
    ∀ (sgs : List Sighting) (acc : List ResolvedHost) (h : ResolvedHost),
      keyIn h acc = true → keyIn h (sgs.foldl insHost acc) = true := by
  intro sgs
  induction sgs with
  | nil => intro acc h hh; exact hh
  | cons s ss ih =>
    intro acc h hh
    rw [List.foldl_cons]
    apply ih
    unfold insHost
    split
    · exact hh
    · rw [keyIn_append, hh, Bool.true_or]

theorem keyIn_foldl_of_mem :
    ∀ (sgs : List Sighting) (acc : List ResolvedHost) (h : ResolvedHost),
      hKey h ∈ sgs → keyIn h (sgs.foldl insHost acc) = true := by
  intro sgs
  induction sgs with
  | nil => intro acc h hh; simp at hh
  | cons s ss ih =>
    intro acc h hh
    rw [List.foldl_cons]
    rcases List.mem_cons.mp hh with he | hm
    · apply keyIn_foldl_of_keyIn
      unfold insHost
      split
      · next hks =>
        rw [keyIn_congr h (mkHost s) acc (by rw [hKey_mkHost]; exact he)]
        exact hks
      · rw [keyIn_append]
        have h1 : keyIn h [mkHost s] = true := by
          simp [keyIn, hKey_mkHost, he]
        rw [h1, Bool.or_true]
    · exact ih _ h hm

theorem mem_of_keyIn_foldl (sgs : List Sighting) (acc : List ResolvedHost)
    (h : ResolvedHost) (hh : keyIn h (sgs.foldl insHost acc) = true) :
    keyIn h acc = true ∨ hKey h ∈ sgs := by
  rw [keyIn_eq_true_iff] at hh
  obtain ⟨x, hx, hke⟩ := hh
  rcases mem_foldl_insHost sgs acc x hx with h1 | ⟨s, hs, rfl⟩
  · left
    rw [keyIn_eq_true_iff]
    exact ⟨x, h1, hke⟩
  · right
    rw [hKey_mkHost] at hke
    exact hke ▸ hs

theorem retries_of_mem_buildThisTime (sgs : List Sighting) (x : ResolvedHost)
    (hx : x ∈ buildThisTime sgs) : x.retries = 8 := by
  rcases mem_foldl_insHost sgs [] x hx with h | ⟨s, _, rfl⟩
  · simp at h
  · rfl

theorem keyIn_buildThisTime (sgs : List Sighting) (h : ResolvedHost) :
    keyIn h (buildThisTime sgs) = true ↔ hKey h ∈ sgs := by
  constructor
  · intro hh
    rcases mem_of_keyIn_foldl sgs [] h hh with h1 | h1
    · simp [keyIn] at h1
    · exact h1
  · intro hh
    exact keyIn_foldl_of_mem sgs [] h hh

theorem nodupKeys_foldl_insHost :
    ∀ (sgs : List Sighting) (acc : List ResolvedHost), nodupKeys acc →
      nodupKeys (sgs.foldl insHost acc) := by
  intro sgs
  induction sgs with
  | nil => intro acc ha; exact ha
  | cons s ss ih =>
    intro acc ha
    rw [List.foldl_cons]
    apply ih
    unfold insHost
    split
    · exact ha
    · next hks =>
      unfold nodupKeys at ha ⊢
      rw [List.map_append, List.nodup_append]
      refine ⟨ha, by simp, ?_⟩
      intro a haa
      simp only [List.map_cons, List.map_nil, List.mem_singleton, hKey_mkHost]
      rintro rfl
      obtain ⟨x, hxa, hxk⟩ := List.mem_map.mp haa
      exact hks (by
        rw [keyIn_eq_true_iff, hKey_mkHost]
        exact ⟨x, hxa, hxk⟩)

theorem nodupKeys_buildThisTime (sgs : List Sighting) :
    nodupKeys (buildThisTime sgs) :=
  nodupKeys_foldl_insHost sgs [] (by simp [nodupKeys])

theorem countHKey_eq_zero_iff (k : HostId) (s : List ResolvedHost) :
    countHKey k s = 0 ↔ ∀ x ∈ s, hKey x ≠ k := by
  simp [countHKey, List.length_eq_zero, List.filter_eq_nil_iff]

theorem countHKey_cons (k : HostId) (y : ResolvedHost) (t : List ResolvedHost) :
    countHKey k (y :: t) = (if hKey y = k then 1 else 0) + countHKey k t := by
  by_cases h : hKey y = k
  · simp [countHKey, List.filter_cons, h]
    omega
  · simp [countHKey, List.filter_cons, h]

theorem nodupKeys_sublist (s' s : List ResolvedHost) (hs : s'.Sublist s)
    (hnd : nodupKeys s) : nodupKeys s' :=
  List.Nodup.sublist (hs.map hKey) hnd

theorem nodupKeys_inj (s : List ResolvedHost) (hnd : nodupKeys s) {x y : ResolvedHost}
    (hx : x ∈ s) (hy : y ∈ s) (h : hKey x = hKey y) : x = y :=
  List.inj_on_of_nodup_map hnd hx hy h

theorem countHKey_eq_one (k : HostId) (s : List ResolvedHost) (hnd : nodupKeys s)
    (x : ResolvedHost) (hx : x ∈ s) (hk : hKey x = k) : countHKey k s = 1 := by
  induction s with
  | nil => simp at hx
  | cons y t ih =>
    have hnd' : nodupKeys t := by
      unfold nodupKeys at hnd ⊢
      rw [List.map_cons, List.nodup_cons] at hnd
      exact hnd.2
    have hny : hKey y ∉ t.map hKey := by
      unfold nodupKeys at hnd
      rw [List.map_cons, List.nodup_cons] at hnd
      exact hnd.1
    rcases List.mem_cons.mp hx with rfl | hxt
    · have hzero : countHKey k t = 0 := by
        rw [countHKey_eq_zero_iff]
        intro z hz hzk
        exact hny (List.mem_map.mpr ⟨z, hz, by rw [hzk, hk]⟩)
      rw [countHKey_cons, if_pos hk, hzero]
    · have hyk : hKey y ≠ k := by
        intro he
        exact hny (List.mem_map.mpr ⟨x, hxt, by rw [hk, he]⟩)
      rw [countHKey_cons, if_neg hyk, ih hnd' hxt]

theorem cycle_set_eq (resolved : List ResolvedHost) (sgs : List Sighting) :
    (cycle resolved sgs).set =
      buildThisTime sgs ++
        ((resolved.filter (fun h => ! keyIn h (buildThisTime sgs))).filter
          (fun h => h.retries != 0)).map (fun h => { h with retries := h.retries - 1 }) := rfl

theorem cycle_removed_eq (resolved : List ResolvedHost) (sgs : List Sighting) :
    (cycle resolved sgs).removedReports =
      (resolved.filter (fun h => ! keyIn h (buildThisTime sgs))).filter
        (fun h => h.retries == 0) := rfl

/-- A sighted key is present in the next stable set with full budget. -/
theorem cycle_sighted (resolved : List ResolvedHost) (sgs : List Sighting) (k : HostId)
    (hk : k ∈ sgs) : memRet (cycle resolved sgs).set k 8 := by
  have h1 : keyIn (mkHost k) (buildThisTime sgs) = true :=
    keyIn_foldl_of_mem sgs [] (mkHost k) (by rw [hKey_mkHost]; exact hk)
  rw [keyIn_eq_true_iff, hKey_mkHost] at h1
  obtain ⟨x, hx, hxe⟩ := h1
  exact ⟨x, by rw [cycle_set_eq]; exact List.mem_append_left _ hx,
    hxe, retries_of_mem_buildThisTime sgs x hx⟩

/-- An absent host with positive budget survives, decremented. -/
theorem cycle_absent_pos (resolved : List ResolvedHost) (sgs : List Sighting)
    (x : ResolvedHost) (hx : x ∈ resolved) (hk : hKey x ∉ sgs) (hr : x.retries ≠ 0) :
    { x with retries := x.retries - 1 } ∈ (cycle resolved sgs).set := by
  have hbt : keyIn x (buildThisTime sgs) = false := by
    cases hb : keyIn x (buildThisTime sgs) with
    | false => rfl
    | true => exact absurd ((keyIn_buildThisTime sgs x).mp hb) hk
  rw [cycle_set_eq]
  apply List.mem_append_right
  apply List.mem_map.mpr
  refine ⟨x, ?_, rfl⟩
  apply List.mem_filter.mpr
  refine ⟨List.mem_filter.mpr ⟨hx, by simp [hbt]⟩, by simp [hr]⟩

/-- An absent host with positive budget is not reported removed. -/
theorem cycle_absent_no_report (resolved : List ResolvedHost) (sgs : List Sighting)
    (k : HostId) (hnd : nodupKeys resolved) (x : ResolvedHost) (hx : x ∈ resolved)
    (hkx : hKey x = k) (hr : x.retries ≠ 0) :
    countHKey k (cycle resolved sgs).removedReports = 0 := by
  rw [countHKey_eq_zero_iff]
  intro y hy hyk
  rw [cycle_removed_eq] at hy
  have hy1 := List.mem_filter.mp hy
  have hy2 := List.mem_filter.mp hy1.1
  have hxy : y = x := nodupKeys_inj resolved hnd hy2.1 hx (by rw [hyk, hkx])
  rw [hxy] at hy1
  exact hr (by simpa using hy1.2)

/-- An absent host with exhausted budget is reported removed exactly once
and leaves the stable set. -/
theorem cycle_absent_zero (resolved : List ResolvedHost) (sgs : List Sighting)
    (hnd : nodupKeys resolved) (x : ResolvedHost) (hx : x ∈ resolved)
    (hk : hKey x ∉ sgs) (hr : x.retries = 0) :
    countHKey (hKey x) (cycle resolved sgs).removedReports = 1 ∧
      ¬ KeyMemP (hKey x) (cycle resolved sgs).set := by
  have hbt : keyIn x (buildThisTime sgs) = false := by
    cases hb : keyIn x (buildThisTime sgs) with
    | false => rfl
    | true => exact absurd ((keyIn_buildThisTime sgs x).mp hb) hk
  constructor
  · have hsub : (cycle resolved sgs).removedReports.Sublist resolved := by
      rw [cycle_removed_eq]
      exact (List.filter_sublist _).trans (List.filter_sublist _)
    apply countHKey_eq_one _ _ (nodupKeys_sublist _ _ hsub hnd) x _ rfl
    rw [cycle_removed_eq]
    apply List.mem_filter.mpr
    refine ⟨List.mem_filter.mpr ⟨hx, by simp [hbt]⟩, by simp [hr]⟩
  · rintro ⟨y, hy, hyk⟩
    rw [cycle_set_eq] at hy
    rcases List.mem_append.mp hy with hyb | hyr
    · rcases mem_foldl_insHost sgs [] y hyb with h | ⟨s, hs, rfl⟩
      · simp at h
      · rw [hKey_mkHost] at hyk
        exact hk (hyk ▸ hs)
    · obtain ⟨z, hz, rfl⟩ := List.mem_map.mp hyr
      have hz1 := List.mem_filter.mp hz
      have hz2 := List.mem_filter.mp hz1.1
      have hzx : z = x := nodupKeys_inj resolved hnd hz2.1 hx hyk
      rw [hzx] at hz1
      have : x.retries ≠ 0 := by simpa using hz1.2
      exact this hr

/-- A key neither present nor sighted stays absent. -/
theorem cycle_unseen_absent (resolved : List ResolvedHost) (sgs : List Sighting)
    (k : HostId) (hun : ∀ x ∈ resolved, hKey x ≠ k) (hk : k ∉ sgs) :
    ¬ KeyMemP k (cycle resolved sgs).set := by
  rintro ⟨y, hy, hyk⟩
  rw [cycle_set_eq] at hy
  rcases List.mem_append.mp hy with hyb | hyr
  · rcases mem_foldl_insHost sgs [] y hyb with h | ⟨s, hs, rfl⟩
    · simp at h
    · rw [hKey_mkHost] at hyk
      exact hk (hyk ▸ hs)
  · obtain ⟨z, hz, rfl⟩ := List.mem_map.mp hyr
    have hz1 := List.mem_filter.mp hz
    have hz2 := List.mem_filter.mp hz1.1
    exact hun z hz2.1 hyk

/-- Inversion: every element of the next stable set is either a sighted
host with full budget, or an absent surviving host whose previous budget
was one higher ("no other transitions occur"). -/
theorem cycle_set_inversion (resolved : List ResolvedHost) (sgs : List Sighting) :
    ∀ y ∈ (cycle resolved sgs).set,
      (hKey y ∈ sgs ∧ y.retries = 8) ∨
      (hKey y ∉ sgs ∧ ∃ x ∈ resolved, hKey x = hKey y ∧ x.retries = y.retries + 1) := by
  intro y hy
  rw [cycle_set_eq] at hy
  rcases List.mem_append.mp hy with hyb | hyr
  · left
    rcases mem_foldl_insHost sgs [] y hyb with h | ⟨s, hs, rfl⟩
    · simp at h
    · exact ⟨by rw [hKey_mkHost]; exact hs, rfl⟩
  · right
    obtain ⟨z, hz, rfl⟩ := List.mem_map.mp hyr
    have hz1 := List.mem_filter.mp hz
    have hz2 := List.mem_filter.mp hz1.1
    have hzr : z.retries ≠ 0 := by simpa using hz1.2
    have hbt : keyIn z (buildThisTime sgs) = false := by
      have := hz2.2
      simpa using this
    constructor
    · intro hin
      rw [(keyIn_buildThisTime sgs z).mpr hin] at hbt
      exact Bool.noConfusion hbt
    · refine ⟨z, hz2.1, rfl, ?_⟩
      show z.retries = z.retries - 1 + 1
      omega

/-- The key-distinctness invariant is preserved by a cycle. -/
theorem cycle_nodupKeys (resolved : List ResolvedHost) (sgs : List Sighting)
    (hnd : nodupKeys resolved) : nodupKeys (cycle resolved sgs).set := by
  rw [cycle_set_eq]
  unfold nodupKeys
  rw [List.map_append, List.nodup_append]
  refine ⟨nodupKeys_buildThisTime sgs, ?_, ?_⟩
  · have : (((resolved.filter (fun h => ! keyIn h (buildThisTime sgs))).filter
        (fun h => h.retries != 0)).map
          (fun h => { h with retries := h.retries - 1 })).map hKey =
        ((resolved.filter (fun h => ! keyIn h (buildThisTime sgs))).filter
          (fun h => h.retries != 0)).map hKey := by
      rw [List.map_map]
      rfl
    rw [this]
    apply List.Nodup.sublist
      (((List.filter_sublist _).trans (List.filter_sublist _)).map hKey)
    exact hnd
  · intro a haa hab
    obtain ⟨x, hxb, hxk⟩ := List.mem_map.mp haa
    obtain ⟨y', hy', hyk⟩ := List.mem_map.mp hab
    obtain ⟨z, hz, rfl⟩ := List.mem_map.mp hy'
    have hz1 := List.mem_filter.mp hz
    have hz2 := List.mem_filter.mp hz1.1
    have hbt : keyIn z (buildThisTime sgs) = false := by simpa using hz2.2
    have : keyIn z (buildThisTime sgs) = true := by
      rw [keyIn_eq_true_iff]
      refine ⟨x, hxb, ?_⟩
      rw [hxk, ← hyk]
      rfl
    rw [this] at hbt
    exact Bool.noConfusion hbt

/-- Claim C4: per host identity — equality and ordering ignore
`retries`, so membership is by `hKey` — one reconciliation cycle realizes
exactly the claimed transitions: a sighted key becomes/stays Present with
budget 8 (in particular a re-sighting restores the full budget); an
absent host with positive budget is decremented and not reported; an
absent host with budget 0 is reported removed exactly once and leaves the
set; an unseen, unsighted key stays out; and by inversion no other
transitions occur, with the key-distinctness invariant preserved. -/
theorem c4_state_machine (resolved : List ResolvedHost) (sgs : List Sighting)
    (hnd : nodupKeys resolved) :
    (∀ k : HostId, k ∈ sgs → memRet (cycle resolved sgs).set k 8) ∧
    (∀ x ∈ resolved, hKey x ∉ sgs → x.retries ≠ 0 →
      { x with retries := x.retries - 1 } ∈ (cycle resolved sgs).set ∧
      countHKey (hKey x) (cycle resolved sgs).removedReports = 0) ∧
    (∀ x ∈ resolved, hKey x ∉ sgs → x.retries = 0 →
      countHKey (hKey x) (cycle resolved sgs).removedReports = 1 ∧
      ¬ KeyMemP (hKey x) (cycle resolved sgs).set) ∧
    (∀ k : HostId, (∀ x ∈ resolved, hKey x ≠ k) → k ∉ sgs →
      ¬ KeyMemP k (cycle resolved sgs).set) ∧
    (∀ y ∈ (cycle resolved sgs).set,
      (hKey y ∈ sgs ∧ y.retries = 8) ∨
      (hKey y ∉ sgs ∧ ∃ x ∈ resolved, hKey x = hKey y ∧ x.retries = y.retries + 1)) ∧
    nodupKeys (cycle resolved sgs).set :=
  ⟨fun k hk => cycle_sighted resolved sgs k hk,
   fun x hx hk hr => ⟨cycle_absent_pos resolved sgs x hx hk hr,
     cycle_absent_no_report resolved sgs (hKey x) hnd x hx rfl hr⟩,
   fun x hx hk hr => cycle_absent_zero resolved sgs hnd x hx hk hr,
   fun k hun hk => cycle_unseen_absent resolved sgs k hun hk,
   cycle_set_inversion resolved sgs,
   cycle_nodupKeys resolved sgs hnd⟩

/-- Witness for C4 at concrete states: a fresh sighting enters with
budget 8; an absent host at budget 3 drops to 2 without a report; an
absent host at budget 0 is reported removed once. -/
theorem c4_state_machine_witness :
    memRet (cycle [⟨1, [97], [98], 3⟩] [((2 : Int), [99], [100])]).set (2, [99], [100]) 8 ∧
    ((⟨1, [97], [98], 2⟩ : ResolvedHost) ∈ (cycle [⟨1, [97], [98], 3⟩] []).set ∧
      countHKey (1, [97], [98]) (cycle [⟨1, [97], [98], 3⟩] []).removedReports = 0) ∧
    countHKey (1, [97], [98]) (cycle [⟨1, [97], [98], 0⟩] []).removedReports = 1 :=
  ⟨(c4_state_machine [⟨1, [97], [98], 3⟩] [((2 : Int), [99], [100])]
        (by unfold nodupKeys; decide)).1 (2, [99], [100]) (by decide),
   (c4_state_machine [⟨1, [97], [98], 3⟩] [] (by unfold nodupKeys; decide)).2.1
      ⟨1, [97], [98], 3⟩ (by decide) (by decide) (by decide),
   ((c4_state_machine [⟨1, [97], [98], 0⟩] [] (by unfold nodupKeys; decide)).2.2.1
      ⟨1, [97], [98], 0⟩ (by decide) (by decide) rfl).1⟩

/-- Counterexample to claim C1: with N = 8, the host `(1, "a", "b")`
sighted once with full budget and then absent for exactly N = 8
consecutive cycles is still in the stable set afterwards (budget 0), and
none of those 8 cycles reported it removed — so "absent for N consecutive
cycles is reported removed" is false; removal happens on the (N+1)-th
absent cycle. -/
theorem c1_counterexample :
    keyIn ⟨1, [97], [98], 0⟩ (iterCycles c1StartSet (fun _ => []) 8) = true ∧
    ((List.range 8).all (fun j =>
      (cycle (iterCycles c1StartSet (fun _ => []) j) []).removedReports.isEmpty)) = true := by
  decide

/-- Claim C1 as amended: a host in the stable set with full budget
N = 8 that is absent from the browse results of all following cycles
remains in the stable set after `j` absent cycles for every `j ≤ 8`
(with budget `8 - j`) and is not reported removed during the first 8
absent cycles; on the 9th consecutive absent cycle it is reported
removed exactly once and is no longer in the stable set. -/
theorem c1_flap_damping (S : List ResolvedHost) (sights : Nat → List Sighting)
    (k : HostId) (x : ResolvedHost) (hnd : nodupKeys S) (hx : x ∈ S) (hk : hKey x = k)
    (hr : x.retries = 8) (habs : ∀ i, k ∉ sights i) :
    (∀ j, j ≤ 8 → memRet (iterCycles S sights j) k (8 - j)) ∧
    (∀ j, j < 8 →
      countHKey k (cycle (iterCycles S sights j) (sights j)).removedReports = 0) ∧
    countHKey k (cycle (iterCycles S sights 8) (sights 8)).removedReports = 1 ∧
    ¬ KeyMemP k (iterCycles S sights 9) := by
  have inv : ∀ j, j ≤ 8 →
      nodupKeys (iterCycles S sights j) ∧ memRet (iterCycles S sights j) k (8 - j) := by
    intro j
    induction j with
    | zero => exact fun _ => ⟨hnd, ⟨x, hx, hk, by omega⟩⟩
    | succ n ihn =>
      intro hle
      obtain ⟨hndn, ⟨y, hy, hyk, hyr⟩⟩ := ihn (by omega)
      refine ⟨cycle_nodupKeys _ _ hndn, ?_⟩
      have hky : hKey y ∉ sights n := by rw [hyk]; exact habs n
      have hyr0 : y.retries ≠ 0 := by omega
      refine ⟨{ y with retries := y.retries - 1 },
        cycle_absent_pos (iterCycles S sights n) (sights n) y hy hky hyr0, hyk, ?_⟩
      show y.retries - 1 = 8 - (n + 1)
      omega
  refine ⟨fun j hj => (inv j hj).2, ?_, ?_, ?_⟩
  · intro j hj
    obtain ⟨hndj, ⟨y, hy, hyk, hyr⟩⟩ := inv j (by omega)
    have hyr0 : y.retries ≠ 0 := by omega
    exact cycle_absent_no_report _ _ k hndj y hy hyk hyr0
  · obtain ⟨hnd8, ⟨y, hy, hyk, hyr⟩⟩ := inv 8 (by omega)
    have hy0 : y.retries = 0 := by omega
    have hky : hKey y ∉ sights 8 := by rw [hyk]; exact habs 8
    have := (cycle_absent_zero (iterCycles S sights 8) (sights 8) hnd8 y hy hky hy0).1
    rw [hyk] at this
    exact this
  · obtain ⟨hnd8, ⟨y, hy, hyk, hyr⟩⟩ := inv 8 (by omega)
    have hy0 : y.retries = 0 := by omega
    have hky : hKey y ∉ sights 8 := by rw [hyk]; exact habs 8
    have := (cycle_absent_zero (iterCycles S sights 8) (sights 8) hnd8 y hy hky hy0).2
    rw [hyk] at this
    exact this

/-- Witness for C1 (amended): concrete run from the singleton stable set;
after 8 absent cycles the host survives with budget 0, the 9th absent
cycle reports it removed once and drops it. -/
theorem c1_flap_damping_witness :
    memRet (iterCycles c1StartSet (fun _ => []) 8) (1, [97], [98]) 0 ∧
    countHKey (1, [97], [98])
      (cycle (iterCycles c1StartSet (fun _ => []) 8) []).removedReports = 1 ∧
    ¬ KeyMemP (1, [97], [98]) (iterCycles c1StartSet (fun _ => []) 9) := by
  have h := c1_flap_damping c1StartSet (fun _ => []) (1, [97], [98])
    ⟨1, [97], [98], 8⟩ (by unfold nodupKeys; decide) (by decide) rfl rfl
    (fun i => List.not_mem_nil _)
  exact ⟨by have := h.1 8 (by omega); simpa using this, h.2.2.1, h.2.2.2⟩

/-! ### Round-trip lemmas -/

theorem utf8SeqLen_pos (l : List Nat) (n : Nat) (h : utf8SeqLen l = some n) : 1 ≤ n := by
  cases l with
  | nil => simp [utf8SeqLen] at h
  | cons b rest =>
    simp only [utf8SeqLen] at h
    repeat' split at h
    all_goals first
      | exact Option.noConfusion h
      | (injection h with h; omega)

/-- Lossy UTF-8 decoding is the identity on valid UTF-8 byte lists. -/
theorem utf8Lossy_valid_id (l : List Nat) (h : utf8Valid l = true) : utf8Lossy l = l := by
  suffices H : ∀ (f : Nat) (l : List Nat), l.length ≤ f → utf8ValidF f l = true →
      utf8LossyF f l = l from H l.length l (Nat.le_refl _) h
  intro f
  induction f with
  | zero =>
    intro l h1 _
    have hl : l = [] := List.eq_nil_of_length_eq_zero (Nat.le_zero.mp h1)
    subst hl
    rfl
  | succ f ih =>
    intro l h1 h2
    cases l with
    | nil => rfl
    | cons b rest =>
      simp only [utf8ValidF] at h2
      simp only [utf8LossyF]
      cases hn : utf8SeqLen (b :: rest) with
      | none => simp [hn] at h2
      | some n =>
        simp only [hn] at h2 ⊢
        have hp := utf8SeqLen_pos _ _ hn
        have hlen : ((b :: rest).drop n).length ≤ f := by
          simp only [List.length_drop, List.length_cons]
          simp only [List.length_cons] at h1
          omega
        rw [ih _ hlen h2]
        exact List.take_append_drop n (b :: rest)

/-- Parsing the encoding of a label list (followed by any suffix)
consumes exactly the encoding and accumulates the dotted name. -/
theorem encodeName_parse :
    ∀ (labels : List (List Nat)) (bs : List Nat), encodeName labels = some bs →
      (∀ l ∈ labels, l ≠ []) →
      ∀ (fuel : Nat) (res suffix : List Nat), (bs ++ suffix).length < fuel →
        parseNameF fuel res (bs ++ suffix) = .ok suffix (joinAcc res labels) := by
  intro labels
  induction labels with
  | nil =>
    intro bs hbs _ fuel res suffix hf
    simp only [encodeName, Option.some.injEq] at hbs
    subst hbs
    cases fuel with
    | zero => omega
    | succ f => simp [parseNameF, joinAcc]
  | cons l ls ih =>
    intro bs hbs hne fuel res suffix hf
    simp only [encodeName] at hbs
    split at hbs
    case isFalse => simp at hbs
    case isTrue hlen255 =>
      cases hrec : encodeName ls with
      | none => rw [hrec] at hbs; simp at hbs
      | some bs' =>
        rw [hrec] at hbs
        simp only [Option.map_some', Option.some.injEq] at hbs
        subst hbs
        cases hl : l with
        | nil => exact absurd hl (hne l (List.mem_cons_self l ls))
        | cons a l' =>
          cases fuel with
          | zero => omega
          | succ f =>
            have hstep :
                ((a :: l').length :: (a :: l' ++ bs')) ++ suffix =
                  (l'.length + 1) :: ((a :: l') ++ (bs' ++ suffix)) := by
              simp
            rw [hstep]
            simp only [parseNameF]
            rw [if_pos (by simp only [List.length_cons, List.length_append]; omega)]
            rw [List.take_left' (by simp), List.drop_left' (by simp)]
            have hfs : (bs' ++ suffix).length < f := by
              rw [hl] at hf
              simp only [List.length_append, List.length_cons] at hf ⊢
              omega
            rw [ih bs' hrec (fun m hm => hne m (List.mem_cons_of_mem l hm)) f _ suffix hfs]
            rfl

theorem parse_name_encodeName (labels : List (List Nat)) (bs suffix : List Nat)
    (h : encodeName labels = some bs) (hne : ∀ l ∈ labels, l ≠ []) :
    parse_name (bs ++ suffix) = .ok suffix (joinAcc [] labels) :=
  encodeName_parse labels bs h hne _ [] suffix (Nat.lt_succ_self _)

theorem joinAcc_of_ne_nil :
    ∀ (ls : List (List Nat)) (res : List Nat), res ≠ [] →
      joinAcc res ls = res ++ dotTail ls := by
  intro ls
  induction ls with
  | nil => intro res _; simp [joinAcc, dotTail]
  | cons l ls ih =>
    intro res hres
    have hne : res.isEmpty = false := by
      cases res with
      | nil => exact absurd rfl hres
      | cons c cs => rfl
    have hstep : joinAcc res (l :: ls) =
        joinAcc ((if res.isEmpty then res else res ++ [46]) ++ utf8Lossy l) ls := rfl
    rw [hstep, hne]
    simp only [Bool.false_eq_true, if_false]
    rw [ih _ (by simp)]
    simp [dotTail, List.append_assoc]

theorem append_dotTail_eq_joinDots :
    ∀ (ls : List (List Nat)) (l : List Nat), (∀ m ∈ ls, utf8Valid m = true) →
      l ++ dotTail ls = joinDots (l :: ls) := by
  intro ls
  induction ls with
  | nil => intro l _; simp [dotTail, joinDots]
  | cons m ms ih =>
    intro l hv
    have hd : dotTail (m :: ms) = 46 :: (utf8Lossy m ++ dotTail ms) := by
      simp [dotTail]
    rw [hd, utf8Lossy_valid_id m (hv m (List.mem_cons_self m ms))]
    have hj : joinDots (l :: m :: ms) = l ++ 46 :: joinDots (m :: ms) := rfl
    rw [hj, ← ih m (fun z hz => hv z (List.mem_cons_of_mem m hz))]

theorem joinAcc_eq_joinDots (labels : List (List Nat))
    (h : ∀ l ∈ labels, l ≠ [] ∧ utf8Valid l = true) :
    joinAcc [] labels = joinDots labels := by
  cases labels with
  | nil => rfl
  | cons l ls =>
    have h1 := h l (List.mem_cons_self l ls)
    have hstep : joinAcc [] (l :: ls) = joinAcc (utf8Lossy l) ls := rfl
    rw [hstep, utf8Lossy_valid_id l h1.2, joinAcc_of_ne_nil ls l h1.1]
    exact append_dotTail_eq_joinDots ls l (fun z hz => (h z (List.mem_cons_of_mem l hz)).2)

theorem encodeU16_decode (n : Nat) (rest : List Nat) :
    be_u16 (encodeU16 n ++ rest) = .ok rest n := by
  simp [encodeU16, be_u16]
  omega

theorem encodeU32_decode (n : Nat) (rest : List Nat) :
    be_u32 (encodeU32 n ++ rest) = .ok rest n := by
  simp [encodeU32, be_u32]
  omega

theorem takeBytes_exact (l : List Nat) : takeBytes l.length l = .ok [] l := by
  simp [takeBytes]

/-- Claim C3: a synthetic resource record — non-empty dot-free string
labels (valid UTF-8, as Rust `String` labels are), 16-bit type and class,
32-bit ttl, payload shorter than 2^16 — that has a wire-format image
(`encodeRR` succeeds, which also requires each label length to fit its
one-byte prefix) decodes with `parse_rr` to exactly the original fields,
the name joined with `'.'`, consuming the whole input. -/
theorem c3_roundtrip (labels : List (List Nat)) (type_ class_ ttl : Nat)
    (payload bs : List Nat)
    (henc : encodeRR labels type_ class_ ttl payload = some bs)
    (hlab : ∀ l ∈ labels, l ≠ [] ∧ (46 : Nat) ∉ l ∧ utf8Valid l = true) :
    parse_rr bs = .ok [] ⟨joinDots labels, type_, class_, ttl, payload⟩ := by
  unfold encodeRR at henc
  split at henc
  case isFalse => exact absurd henc (by simp)
  case isTrue =>
    cases hnm : encodeName labels with
    | none => rw [hnm] at henc; exact absurd henc (by simp)
    | some nm =>
      rw [hnm] at henc
      simp only [Option.map_some', Option.some.injEq] at henc
      subst henc
      unfold parse_rr
      have hassoc : nm ++ encodeU16 type_ ++ encodeU16 class_ ++ encodeU32 ttl ++
          encodeU16 payload.length ++ payload =
          nm ++ (encodeU16 type_ ++ (encodeU16 class_ ++ (encodeU32 ttl ++
            (encodeU16 payload.length ++ payload)))) := by
        simp [List.append_assoc]
      rw [hassoc]
      rw [parse_name_encodeName labels nm _ hnm (fun l hl => (hlab l hl).1)]
      simp only [ParseOut.bind]
      rw [encodeU16_decode type_]
      simp only [ParseOut.bind]
      rw [encodeU16_decode class_]
      simp only [ParseOut.bind]
      rw [encodeU32_decode ttl]
      simp only [ParseOut.bind]
      rw [encodeU16_decode payload.length]
      simp only [ParseOut.bind]
      rw [takeBytes_exact payload]
      simp only [ParseOut.bind]
      rw [joinAcc_eq_joinDots labels (fun l hl => ⟨(hlab l hl).1, (hlab l hl).2.2⟩)]

/-- Witness for C3: the record `("a.b", 12, 1, 7, [1,2,3])` encodes and
decodes back to itself. -/
theorem c3_roundtrip_witness :
    encodeRR [[97], [98]] 12 1 7 [1, 2, 3] =
      some [1, 97, 1, 98, 0, 0, 12, 0, 1, 0, 0, 0, 7, 0, 3, 1, 2, 3] ∧
    parse_rr [1, 97, 1, 98, 0, 0, 12, 0, 1, 0, 0, 0, 7, 0, 3, 1, 2, 3] =
      .ok [] ⟨[97, 46, 98], 12, 1, 7, [1, 2, 3]⟩ :=
  ⟨by decide, c3_roundtrip [[97], [98]] 12 1 7 [1, 2, 3] _ (by decide) (by decide)⟩

example : parse_name [1, 97, 1, 98, 0, 7] = .ok [7] [97, 46, 98] := by decide
example : parse_name [2, 65] = .panic := by decide
example : parse_name [] = .err := by decide
example :
    parse_rr [1, 97, 0, 0, 12, 0, 1, 0, 0, 0, 0, 0, 3, 1, 98, 0] =
      .ok [] ⟨[97], 12, 1, 0, [1, 98, 0]⟩ := by decide
example : clc "TCP,UDP".toList "UDP".toList = true := by decide
example :
    mkProps ["tp=TCP".toList, "et=1".toList, "cn=2".toList, "am=Kitchen".toList] false =
      ⟨"Kitchen".toList, some "tcp".toList, some "RSA".toList, some "AAC".toList⟩ := by decide
example : (mkProps ["cn=99".toList] false).codec = none := by decide
example : (mkProps ["tp=TCP".toList, "tp=UDP".toList] false).transport =
    some "udp".toList := by decide
example : mkSocket 3 10 [0xfe, 0x80, 0,0,0,0,0,0,0,0,0,0,0,0,0,1] 80 =
    some (.v6 [0xfe, 0x80, 0,0,0,0,0,0,0,0,0,0,0,0,0,1] 80 3) := by decide

end PwResolved
